import Mathlib

/-!
# Verification of the text-processing core (normalization, offset maps, sentence fragmentation)

This file embeds the text-processing primitives of the repository:
`normalize_ops.py` (case folding, Unicode normalization, offset maps,
source-offset resolution) and `sentence_breaking_ops_v2.py` (heuristic
sentence fragmentation).

The Python files under `src/` are thin adaptation glue over native kernels
(`_normalize_ops.so`, `_sentence_breaking_ops_v2.so`) whose sources are not
part of the repository snapshot.  Definitions for those missing kernels are
modelled from the specification (`spec.md`), with the repository's own tests
(`normalize_ops_test.py`, `sentence_breaking_ops_v2_test.py`) taken as the
authority on behavior wherever they pin it down.  Byte strings are
`List Nat` (each entry a byte value), codepoints are `Nat`, and fallible
operations return `Except NormErr`.
-/

/-- Error taxonomy of the core, from spec section 7. -/
inductive NormErr : Type where
  | invalidEncoding : NormErr
  | invalidNormalizationForm : NormErr
  | offsetOutOfRange : NormErr
  | groupingMismatch : NormErr
deriving DecidableEq, Repr

/-- The four Unicode normalization forms recognized by `normalize_utf8`. -/
inductive NormForm : Type where
  | nfc : NormForm
  | nfd : NormForm
  | nfkc : NormForm
  | nfkd : NormForm
deriving DecidableEq, Repr

/-- ASCII upper-casing of a string, used for case-insensitive matching of
normalization form names (`normalize_ops.py` accepts e.g. both "NFKC" and
"nfkc", per `normalize_ops_test.py`). -/
def upperAscii (s : String) : String :=
  String.mk (s.data.map (fun c =>
    if 97 ≤ c.toNat ∧ c.toNat ≤ 122 then Char.ofNat (c.toNat - 32) else c))

/-- Modelled from the spec: `form_name` is matched case-insensitively against
the four recognized names {NFC, NFD, NFKC, NFKD}; any other value is a
configuration error (spec sections 3 and 6). -/
def parseNormalizationForm (f : String) : Option NormForm :=
  let u := upperAscii f
  if u = "NFC" then some NormForm.nfc
  else if u = "NFD" then some NormForm.nfd
  else if u = "NFKC" then some NormForm.nfkc
  else if u = "NFKD" then some NormForm.nfkd
  else none

/-! ## UTF-8 codec

Byte strings are lists of byte values; codepoints are Unicode scalar values.
The decoder rejects malformed UTF-8 (continuation errors, overlong forms,
surrogates, out-of-range codepoints), matching the spec's `InvalidEncoding`
boundary check. -/

/-- A Unicode scalar value: in range and not a surrogate. -/
def ScalarOK (c : Nat) : Prop := c < 0x110000 ∧ ¬(0xD800 ≤ c ∧ c < 0xE000)

instance (c : Nat) : Decidable (ScalarOK c) := by
  unfold ScalarOK; infer_instance

/-- UTF-8 encoding of a single scalar value. -/
def utf8EncodeChar (c : Nat) : List Nat :=
  if c < 0x80 then [c]
  else if c < 0x800 then [0xC0 + c / 64, 0x80 + c % 64]
  else if c < 0x10000 then
    [0xE0 + c / 4096, 0x80 + c / 64 % 64, 0x80 + c % 64]
  else
    [0xF0 + c / 0x40000, 0x80 + c / 4096 % 64, 0x80 + c / 64 % 64, 0x80 + c % 64]

/-- UTF-8 encoding of a codepoint sequence. -/
def utf8Encode (l : List Nat) : List Nat := l.flatMap utf8EncodeChar

/-- Whether a byte is a UTF-8 continuation byte. -/
def isCont (b : Nat) : Bool := 0x80 ≤ b ∧ b < 0xC0

/-- Decode one UTF-8-encoded scalar value from the front of a byte string,
returning the codepoint and the remaining bytes; `none` on malformed input
(bad lead or continuation bytes, overlong encodings, surrogates,
out-of-range codepoints). -/
def decodeOne : List Nat → Option (Nat × List Nat)
  | [] => none
  | b1 :: t =>
    if b1 < 0x80 then some (b1, t)
    else if b1 < 0xC2 then none
    else if b1 < 0xE0 then
      match t with
      | b2 :: t2 =>
        if isCont b2 then some ((b1 - 0xC0) * 64 + (b2 - 0x80), t2) else none
      | [] => none
    else if b1 < 0xF0 then
      match t with
      | b2 :: b3 :: t3 =>
        let c := (b1 - 0xE0) * 4096 + (b2 - 0x80) * 64 + (b3 - 0x80)
        if isCont b2 ∧ isCont b3 ∧ 0x800 ≤ c ∧ ¬(0xD800 ≤ c ∧ c < 0xE000) then
          some (c, t3)
        else none
      | _ => none
    else if b1 < 0xF5 then
      match t with
      | b2 :: b3 :: b4 :: t4 =>
        let c := (b1 - 0xF0) * 0x40000 + (b2 - 0x80) * 4096 +
                 (b3 - 0x80) * 64 + (b4 - 0x80)
        if isCont b2 ∧ isCont b3 ∧ isCont b4 ∧ 0x10000 ≤ c ∧ c < 0x110000 then
          some (c, t4)
        else none
      | _ => none
    else none

/-- Fuel-driven UTF-8 decoding loop; the fuel is an upper bound on the
number of codepoints (any fuel at least the byte length is enough, since
each scalar consumes at least one byte). -/
def utf8DecodeGo : Nat → List Nat → Option (List Nat)
  | _, [] => some []
  | 0, _ :: _ => none
  | fuel + 1, b1 :: t =>
    match decodeOne (b1 :: t) with
    | none => none
    | some (c, rest) => (utf8DecodeGo fuel rest).map (fun l => c :: l)

/-- UTF-8 decoding; returns `none` on malformed input (overlong encodings,
surrogates, bad continuation bytes, out-of-range codepoints). -/
def utf8Decode (s : List Nat) : Option (List Nat) := utf8DecodeGo s.length s

/-! ## Unicode data tables

Modelled from the spec: the canonical/compatibility decomposition,
combining-class, canonical-composition and case-folding data of the missing
native normalization engine, restricted to the codepoints exercised by the
spec's examples and the repository's tests.  Decomposition entries are stored
fully decomposed (the recursive closure the spec's section 4.2 describes). -/

/-- Canonical (NFD) full decompositions. -/
def dcTbl : List (Nat × List Nat) :=
  [ (0x1E9B, [0x017F, 0x0307]),
    (0x1E63, [0x0073, 0x0323]),
    (0x1E69, [0x0073, 0x0323, 0x0307]) ]

/-- Compatibility (NFKD) full decompositions. -/
def dkTbl : List (Nat × List Nat) :=
  [ (0x1E9B, [0x0073, 0x0307]),
    (0x1E63, [0x0073, 0x0323]),
    (0x1E69, [0x0073, 0x0323, 0x0307]),
    (0x017F, [0x0073]),
    (0xFF21, [0x41]),
    (0xFF24, [0x44]),
    (0xFF2B, [0x4B]),
    (0xFF2F, [0x4F]),
    (0xFF37, [0x57]) ]

/-- Canonical combining classes (0 when absent: starters). -/
def cccTbl : List (Nat × Nat) := [(0x0307, 230), (0x0323, 220)]

/-- Canonical combining class of a codepoint. -/
def cccOf (c : Nat) : Nat := (cccTbl.lookup c).getD 0

/-- Primary canonical composition pairs (starter, mark) to composite. -/
def compTbl : List ((Nat × Nat) × Nat) :=
  [ ((0x0073, 0x0323), 0x1E63),
    ((0x1E63, 0x0307), 0x1E69) ]

/-- Canonical composition lookup. -/
def compLookup (a m : Nat) : Option Nat := compTbl.lookup (a, m)

/-- Decomposition of one codepoint under a decomposition table: the table
entry when present, otherwise the codepoint itself. -/
def decompChar (tbl : List (Nat × List Nat)) (c : Nat) : List Nat :=
  (tbl.lookup c).getD [c]

/-- Modelled from the spec: full recursive decomposition of a codepoint
sequence (spec section 4.2), realized by table entries being stored fully
decomposed. -/
def decompAll (tbl : List (Nat × List Nat)) (l : List Nat) : List Nat :=
  l.flatMap (decompChar tbl)

/-- One step of the canonical ordering algorithm: sink a codepoint rightward
past combining marks of strictly smaller nonzero combining class.  Starters
(class 0) act as barriers and never move. -/
def sinkCC (c : Nat) : List Nat → List Nat
  | [] => [c]
  | d :: l => if 0 < cccOf d ∧ cccOf d < cccOf c then d :: sinkCC c l
              else c :: d :: l

/-- Modelled from the spec: the canonical ordering algorithm — a stable sort
of combining marks by canonical combining class, with starters as barriers
(spec section 4.2). -/
def canonicalOrder : List Nat → List Nat
  | [] => []
  | c :: rest => sinkCC c (canonicalOrder rest)

/-- Modelled from the spec: canonical composition — greedily recompose
maximal sequences of a starter followed by combining marks into precomposed
codepoints wherever a canonical composition exists, left to right,
non-overlapping (spec section 4.2).  The first argument is the pending
starter (or composite) of the current run, if any. -/
def composeGo : Option Nat → List Nat → List Nat
  | none, [] => []
  | some c, [] => [c]
  | none, c :: rest =>
    if cccOf c = 0 then composeGo (some c) rest else c :: composeGo none rest
  | some c, m :: rest =>
    match compLookup c m with
    | some x => composeGo (some x) rest
    | none =>
      c :: (if cccOf m = 0 then composeGo (some m) rest
            else m :: composeGo none rest)

/-- Canonical composition of a codepoint sequence. -/
def composeCps (l : List Nat) : List Nat := composeGo none l

/-- The elements a pending composition slot contributes. -/
def pendList : Option Nat → List Nat
  | none => []
  | some c => [c]

/-- Modelled from the spec: the codepoint-level normalization pipeline —
decomposition (canonical or compatibility), canonical ordering, and, for the
composition forms, canonical composition (spec section 4.2). -/
def applyForm : NormForm → List Nat → List Nat
  | NormForm.nfd, l => canonicalOrder (decompAll dcTbl l)
  | NormForm.nfkd, l => canonicalOrder (decompAll dkTbl l)
  | NormForm.nfc, l => composeCps (canonicalOrder (decompAll dcTbl l))
  | NormForm.nfkc, l => composeCps (canonicalOrder (decompAll dkTbl l))

/-- Modelled from the spec: `normalize_utf8` applied to one byte string —
parse the form name (case-insensitively), decode, run the normalization
pipeline, re-encode (`normalize_ops.py` `normalize_utf8`; batch expansion is
external glue per spec section 1). -/
def normalize_utf8 (s : List Nat) (f : String) : Except NormErr (List Nat) :=
  match parseNormalizationForm f with
  | none => Except.error NormErr.invalidNormalizationForm
  | some F =>
    match utf8Decode s with
    | none => Except.error NormErr.invalidEncoding
    | some cps => Except.ok (utf8Encode (applyForm F cps))

/-- Modelled from the spec: Unicode default case folding of one codepoint —
ASCII uppercase letters map to lowercase, plus special foldings such as
U+00DF to "ss" (spec section 4.1), restricted to the codepoints the tests
exercise. -/
def foldChar (c : Nat) : List Nat :=
  if 0x41 ≤ c ∧ c ≤ 0x5A then [c + 0x20]
  else if c = 0xDF then [0x73, 0x73]
  else [c]

/-- Modelled from the spec: `case_fold_utf8` applied to one byte string —
Unicode default case folding followed by NFKC normalization
(`normalize_ops.py` `case_fold_utf8`; spec section 4.1). -/
def case_fold_utf8 (s : List Nat) : Except NormErr (List Nat) :=
  match utf8Decode s with
  | none => Except.error NormErr.invalidEncoding
  | some cps =>
    Except.ok (utf8Encode (applyForm NormForm.nfkc (cps.flatMap foldChar)))

/-! ## Offset maps and source-offset resolution

Modelled from the spec (sections 3, 4.2, 4.3): the offset map built by
`normalize_utf8_with_offsets` is an ordered sequence of correspondence
records at codepoint-cluster granularity, covering the whole output.
Unchanged clusters map byte-for-byte; rewritten clusters map any interior or
starting output offset to the start of the input span (left-biased), and
their end boundary to the next record.  Per the repository's tests
(`FindSourceOffsetsTest.test_one_string`: output offset 22 of a 20-byte
output resolves to 36, the input byte length), offsets at or beyond the
output length resolve to the input length instead of failing; a negative
offset fails with `OffsetOutOfRange` per spec section 4.3. -/

/-- One correspondence record of an offset map: either an unchanged span
(byte-identical, equal lengths) or a rewritten span with independent output
and input byte lengths. -/
inductive Span : Type where
  | same : Nat → Span
  | repl : Nat → Nat → Span
deriving DecidableEq, Repr

/-- Output byte length of a span. -/
def Span.outLen : Span → Nat
  | Span.same k => k
  | Span.repl o _ => o

/-- Input byte length of a span. -/
def Span.inLen : Span → Nat
  | Span.same k => k
  | Span.repl _ i => i

/-- An offset map: correspondence records in output order, contiguous and
covering the entire output and input. -/
structure OffsetMap : Type where
  spans : List Span
deriving DecidableEq, Repr

/-- Total output byte length described by an offset map. -/
def OffsetMap.outLen (m : OffsetMap) : Nat := (m.spans.map Span.outLen).sum

/-- Total input byte length described by an offset map. -/
def OffsetMap.inLen (m : OffsetMap) : Nat := (m.spans.map Span.inLen).sum

/-- Core resolution walk: locate the record containing output offset `n`;
identity within unchanged records, left-bias to the record's input start
within rewritten records, and clamp to the total input length past the end. -/
def resolveGo : List Span → Nat → Nat → Nat
  | [], _, iAcc => iAcc
  | Span.same k :: rest, n, iAcc =>
    if n < k then iAcc + n else resolveGo rest (n - k) (iAcc + k)
  | Span.repl ol il :: rest, n, iAcc =>
    if n < ol then iAcc else resolveGo rest (n - ol) (iAcc + il)

/-- Resolution of a single requested output offset against one offset map
(the per-offset core of `find_source_offsets`, reached by the rank-0 path of
`normalize_ops.py`): fails on negative offsets, otherwise walks the records. -/
def find_source_offset (m : OffsetMap) (o : Int) : Except NormErr Nat :=
  if o < 0 then Except.error NormErr.offsetOutOfRange
  else Except.ok (resolveGo m.spans o.toNat 0)

/-- Split a codepoint sequence into normalization clusters: each cluster is
one codepoint together with the maximal run of nonzero-combining-class marks
following it.  The first argument accumulates the current cluster in reverse. -/
def clusterGo (cur : List Nat) : List Nat → List (List Nat)
  | [] => [cur.reverse]
  | c :: rest =>
    if cccOf c = 0 then cur.reverse :: clusterGo [c] rest
    else clusterGo (c :: cur) rest

/-- Cluster decomposition of a codepoint sequence. -/
def clusterCps : List Nat → List (List Nat)
  | [] => []
  | c :: rest => clusterGo [c] rest

/-- The correspondence record for one cluster under one form: unchanged when
normalization leaves its bytes intact, rewritten otherwise. -/
def spanOfCluster (F : NormForm) (cl : List Nat) : Span :=
  let ib := utf8Encode cl
  let ob := utf8Encode (applyForm F cl)
  if ob = ib then Span.same ib.length else Span.repl ob.length ib.length

/-- Modelled from the spec: `normalize_utf8_with_offsets` applied to one byte
string (`normalize_ops.py`; spec section 4.2) — only the composition forms
NFC and NFKC are supported (`NormalizeWithOffsetsOpsTest.
test_unaccepted_normalization_form` rejects NFKD), and the offset map records
one correspondence record per normalization cluster. -/
def normalize_utf8_with_offsets (s : List Nat) (f : String) :
    Except NormErr (List Nat × OffsetMap) :=
  match parseNormalizationForm f with
  | none => Except.error NormErr.invalidNormalizationForm
  | some F =>
    if F = NormForm.nfd ∨ F = NormForm.nfkd then
      Except.error NormErr.invalidNormalizationForm
    else
      match utf8Decode s with
      | none => Except.error NormErr.invalidEncoding
      | some cps =>
        let cls := clusterCps cps
        Except.ok ((cls.map (fun cl => utf8Encode (applyForm F cl))).flatten,
                   OffsetMap.mk (cls.map (spanOfCluster F)))

/-- Except-valued map over a list, failing at the first failure. -/
def mapE (f : α → Except NormErr β) : List α → Except NormErr (List β)
  | [] => Except.ok []
  | a :: l =>
    match f a with
    | Except.error e => Except.error e
    | Except.ok b => (mapE f l).map (fun bs => b :: bs)

/-- Modelled from the spec: the batched resolution core of
`find_source_offsets` — empty offset rows pass through; non-empty offset rows
are paired with the offset maps in order; a leftover map or a leftover
non-empty row is a grouping mismatch.  The pairing (rather than positional
alignment against the documents) follows the repository's tests
(`FindSourceOffsetsTest.test_dimension_matched_but_elements_not_aligned` and
the two ragged-dimension error tests). -/
def resolveRows : List OffsetMap → List (List Int) → Except NormErr (List (List Nat))
  | ms, [] =>
    if ms.isEmpty then Except.ok [] else Except.error NormErr.groupingMismatch
  | ms, row :: rows =>
    if row = [] then (resolveRows ms rows).map (fun rs => [] :: rs)
    else
      match ms with
      | [] => Except.error NormErr.groupingMismatch
      | m :: ms2 =>
        match mapE (find_source_offset m) row with
        | Except.error e => Except.error e
        | Except.ok vs => (resolveRows ms2 rows).map (fun rs => vs :: rs)

/-- Regroup a flat list into sublists of the given sizes. -/
def splitSizes : List Nat → List α → List (List α)
  | [], _ => []
  | n :: ns, xs => xs.take n :: splitSizes ns (xs.drop n)

/-- Modelled from the spec: `find_source_offsets` on a nested batch
(`normalize_ops.py` `find_source_offsets`): the glue flattens the offsets to
their innermost rows, resolves them against the flat list of offset maps,
and reassembles the caller's nesting structure. -/
def find_source_offsets (maps : List OffsetMap) (offs : List (List (List Int))) :
    Except NormErr (List (List (List Nat))) :=
  (resolveRows maps offs.flatten).map
    (fun rows => splitSizes (offs.map List.length) rows)

/-! ## Sentence fragmentation

Modelled from the spec (section 4.4): the heuristic sentence fragmenter of
the missing native kernel `sentence_fragments_v2`, a single left-to-right
scan over the document bytes with terminal-punctuation runs, the
initial/acronym rule, emoticon tokens, and parenthesis tracking; behavior on
concrete inputs follows `sentence_breaking_ops_v2_test.py`. -/

/-- Terminal punctuation bytes: '.', '!', '?'. -/
def isTermPunct (b : Nat) : Bool := b = 0x2E ∨ b = 0x21 ∨ b = 0x3F

/-- Whitespace bytes. -/
def isWsByte (b : Nat) : Bool := b = 0x20 ∨ b = 0x09 ∨ b = 0x0A ∨ b = 0x0D

/-- ASCII uppercase letter. -/
def isUpperByte (b : Nat) : Bool := 0x41 ≤ b ∧ b ≤ 0x5A

/-- ASCII letter. -/
def isAlphaByte (b : Nat) : Bool :=
  (0x41 ≤ b ∧ b ≤ 0x5A) ∨ (0x61 ≤ b ∧ b ≤ 0x7A)

/-- Byte of a document at an index (0 past the end). -/
def byteAt (doc : List Nat) (i : Nat) : Nat := doc.getD i 0

/-- First non-whitespace position at or after `i` (fuel-driven scan). -/
def skipWsFrom (doc : List Nat) : Nat → Nat → Nat
  | 0, i => i
  | fuel + 1, i =>
    if i < doc.length ∧ isWsByte (byteAt doc i) then skipWsFrom doc fuel (i + 1)
    else i

/-- End of the maximal terminal-punctuation run starting at `i`. -/
def punctRunEnd (doc : List Nat) : Nat → Nat → Nat
  | 0, i => i
  | fuel + 1, i =>
    if i < doc.length ∧ isTermPunct (byteAt doc i) then
      punctRunEnd doc fuel (i + 1)
    else i

/-- Modelled from the spec: the fixed emoticon token table (spec sections
4.4 and 8), restricted to the tokens the tests exercise. -/
def emoticonTbl : List (List Nat) :=
  [ [0x3A, 0x29],                                      -- ":)"
    [0x3A, 0x2D, 0x5C],                                -- ":-\"
    [0x3A, 0x2D, 0x4F],                                -- ":-O"
    [0x7C, 0x2D, 0x4F],                                -- "|-O"
    [0x28, 0x3D, 0x5E, 0x2E, 0x2E, 0x5E, 0x3D, 0x29] ] -- "(=^..^=)"

/-- Whether the pattern occurs in the document starting at index `i`. -/
def matchesAt (doc : List Nat) : Nat → List Nat → Bool
  | _, [] => true
  | i, p :: ps => i < doc.length ∧ byteAt doc i = p ∧ matchesAt doc (i + 1) ps

/-- End position of an emoticon-table token starting at `i`, if any. -/
def emoticonEndAt (doc : List Nat) (i : Nat) : Option Nat :=
  (emoticonTbl.find? (fun pat => matchesAt doc i pat)).map
    (fun pat => i + pat.length)

/-- The initial/acronym rule (spec section 4.4 rule 2): a period preceded by
a single uppercase letter and followed by another capital-period pair is
absorbed into the current fragment instead of terminating it. -/
def acronymDot (doc : List Nat) (i : Nat) : Bool :=
  1 ≤ i ∧ isUpperByte (byteAt doc (i - 1)) ∧
  (i < 2 ∨ ¬isAlphaByte (byteAt doc (i - 2))) ∧
  isUpperByte (byteAt doc (i + 1)) ∧ byteAt doc (i + 2) = 0x2E

/-- Modelled from the spec: the heuristic sentence fragmentation scan (spec
section 4.4) — left to right with the current fragment start and parenthesis
depth; emoticon tokens close a fragment (absorbing trailing punctuation),
terminal-punctuation runs close a fragment at depth 0 unless absorbed by the
acronym rule, a punctuation run ending at a closing parenthesis closes the
fragment right after the parenthesis, and the final fragment is emitted at
end of document. -/
def fragGo (doc : List Nat) : Nat → Nat → Nat → Nat → List (Nat × Nat)
  | 0, start, pos, _ =>
    if start < doc.length ∧ start ≤ pos then [(start, doc.length)] else []
  | fuel + 1, start, pos, depth =>
    if pos < doc.length then
      match emoticonEndAt doc pos with
      | some e =>
        let e2 := punctRunEnd doc doc.length e
        let ns := skipWsFrom doc doc.length e2
        (start, e2) :: fragGo doc fuel ns ns 0
      | none =>
        let b := byteAt doc pos
        if b = 0x28 then fragGo doc fuel start (pos + 1) (depth + 1)
        else if b = 0x29 then
          if depth = 1 ∧ 1 ≤ pos ∧ isTermPunct (byteAt doc (pos - 1)) then
            let ns := skipWsFrom doc doc.length (pos + 1)
            (start, pos + 1) :: fragGo doc fuel ns ns 0
          else fragGo doc fuel start (pos + 1) (depth - 1)
        else if isTermPunct b ∧ depth = 0 then
          if b = 0x2E ∧ acronymDot doc pos then
            fragGo doc fuel start (pos + 1) depth
          else
            let e := punctRunEnd doc doc.length pos
            let ns := skipWsFrom doc doc.length e
            (start, e) :: fragGo doc fuel ns ns 0
        else fragGo doc fuel start (pos + 1) depth
    else if start < doc.length then [(start, doc.length)] else []

/-- Fragment spans (inclusive start, exclusive end byte offsets) of one
document. -/
def sentenceFragments (doc : List Nat) : List (Nat × Nat) :=
  let s0 := skipWsFrom doc doc.length 0
  fragGo doc (doc.length + 1) s0 s0 0

/-- The byte substring primitive the glue uses to extract fragment text
(`string_ops.substr` in `sentence_breaking_ops_v2.py`): `len` bytes starting
at `pos`. -/
def substrBytes (doc : List Nat) (pos len : Nat) : List Nat :=
  (doc.drop pos).take len

/-- `HeuristicBasedSentenceBreaker.break_sentences_with_offsets` applied to
one document (`sentence_breaking_ops_v2.py`): the native fragmenter supplies
the offsets, and the glue derives each fragment's text from the document by
`substr(doc, start, end - start)`. -/
def break_sentences_with_offsets (doc : List Nat) :
    List (List Nat) × List Nat × List Nat :=
  let frags := sentenceFragments doc
  (frags.map (fun p => substrBytes doc p.1 (p.2 - p.1)),
   frags.map (fun p => p.1), frags.map (fun p => p.2))

/-! ## Concrete inputs from the spec's examples and the repository's tests -/

/-- Codepoints of "株式会社ＫＡＤＯＫＡＷＡ" (the offset-example string of
spec section 8 and `FindSourceOffsetsTest`). -/
def kadokawaCps : List Nat :=
  [0x682A, 0x5F0F, 0x4F1A, 0x793E,
   0xFF2B, 0xFF21, 0xFF24, 0xFF2F, 0xFF2B, 0xFF21, 0xFF37, 0xFF21]

/-- UTF-8 bytes of "株式会社ＫＡＤＯＫＡＷＡ" (36 bytes). -/
def kadokawaBytes : List Nat := utf8Encode kadokawaCps

/-- NFKC-normalized bytes of "株式会社ＫＡＤＯＫＡＷＡ": the four CJK
characters unchanged, the eight fullwidth letters mapped to ASCII
"KADOKAWA" (20 bytes). -/
def kadokawaNorm : List Nat :=
  [230, 160, 170, 229, 188, 143, 228, 188, 154, 231, 164, 190,
   75, 65, 68, 79, 75, 65, 87, 65]

/-- The offset map normalization of "株式会社ＫＡＤＯＫＡＷＡ" builds: one
unchanged 3-byte record per CJK character, one 3-byte-to-1-byte rewrite
record per fullwidth letter. -/
def kadokawaMap : OffsetMap :=
  OffsetMap.mk
    [Span.same 3, Span.same 3, Span.same 3, Span.same 3,
     Span.repl 1 3, Span.repl 1 3, Span.repl 1 3, Span.repl 1 3,
     Span.repl 1 3, Span.repl 1 3, Span.repl 1 3, Span.repl 1 3]

/-- Codepoints of "株式会社". -/
def kabushikiCps : List Nat := [0x682A, 0x5F0F, 0x4F1A, 0x793E]

/-- UTF-8 bytes of "株式会社". -/
def kabushikiBytes : List Nat := utf8Encode kabushikiCps

/-- Offset map of normalizing "株式会社" under NFKC: all unchanged. -/
def kabushikiMap : OffsetMap :=
  OffsetMap.mk [Span.same 3, Span.same 3, Span.same 3, Span.same 3]

/-- Codepoints of "ＫＡＤＯＫＡＷＡ". -/
def kadoOnlyCps : List Nat :=
  [0xFF2B, 0xFF21, 0xFF24, 0xFF2F, 0xFF2B, 0xFF21, 0xFF37, 0xFF21]

/-- UTF-8 bytes of "ＫＡＤＯＫＡＷＡ". -/
def kadoOnlyBytes : List Nat := utf8Encode kadoOnlyCps

/-- Offset map of normalizing "ＫＡＤＯＫＡＷＡ" under NFKC: eight
3-byte-to-1-byte rewrite records. -/
def kadoOnlyMap : OffsetMap :=
  OffsetMap.mk
    [Span.repl 1 3, Span.repl 1 3, Span.repl 1 3, Span.repl 1 3,
     Span.repl 1 3, Span.repl 1 3, Span.repl 1 3, Span.repl 1 3]

/-- The ragged document batch of
`FindSourceOffsetsTest.test_dimension_matched_but_elements_not_aligned`:
`[["株式会社"], [], ["ＫＡＤＯＫＡＷＡ"]]`. -/
def c8Docs : List (List (List Nat)) := [[kabushikiBytes], [], [kadoOnlyBytes]]

/-- The offsets of that test: `[[[0, 1, 2]], [[0, 1, 2]], [[]]]` — nested one
level deeper than the documents, with a non-empty group at position 1 where
the document batch has an empty row. -/
def c8Offs : List (List (List Int)) := [[[0, 1, 2]], [[0, 1, 2]], [[]]]

/-- ASCII bytes of "Welcome to the U.S. don't be surprised." (39 bytes). -/
def usDocBytes : List Nat :=
  [87, 101, 108, 99, 111, 109, 101, 32, 116, 111, 32, 116, 104, 101, 32,
   85, 46, 83, 46, 32,
   100, 111, 110, 39, 116, 32, 98, 101, 32, 115, 117, 114, 112, 114, 105,
   115, 101, 100, 46]

/-- ASCII bytes of "Welcome to the U.S.". -/
def usFrag1 : List Nat :=
  [87, 101, 108, 99, 111, 109, 101, 32, 116, 111, 32, 116, 104, 101, 32,
   85, 46, 83, 46]

/-- ASCII bytes of "don't be surprised.". -/
def usFrag2 : List Nat :=
  [100, 111, 110, 39, 116, 32, 98, 101, 32, 115, 117, 114, 112, 114, 105,
   115, 101, 100, 46]

/-- Codepoints of " TExt to loWERcase! ". -/
def foldInCps : List Nat :=
  [32, 84, 69, 120, 116, 32, 116, 111, 32, 108, 111, 87, 69, 82, 99, 97,
   115, 101, 33, 32]

/-- Codepoints of " text to lowercase! ". -/
def foldOutCps : List Nat :=
  [32, 116, 101, 120, 116, 32, 116, 111, 32, 108, 111, 119, 101, 114, 99,
   97, 115, 101, 33, 32]

/-- A codepoint sequence in canonical order: no adjacent pair has a nonzero
combining class smaller than the nonzero class before it (spec section 4.2
invariant of the ordering algorithm's output). -/
def OrderedCC (l : List Nat) : Prop :=
  List.Chain' (fun a b => ¬(0 < cccOf b ∧ cccOf b < cccOf a)) l

/-! ## Theorems -/

/-- Claim C2: normalizing the single string "株式会社ＫＡＤＯＫＡＷＡ" under
form NFKC with `normalize_utf8_with_offsets` and then resolving output byte
offset 22 through `find_source_offsets` returns input byte offset 36. -/
theorem kadokawa_offset_22_resolves_to_36 :
    normalize_utf8_with_offsets kadokawaBytes "NFKC" =
      Except.ok (kadokawaNorm, kadokawaMap) ∧
    find_source_offset kadokawaMap 22 = Except.ok 36 := ⟨rfl, rfl⟩

/-- Claim C9: a period that is part of an initial/acronym pattern does not
close a fragment: fragmenting "Welcome to the U.S. don't be surprised."
yields exactly the fragments "Welcome to the U.S." and "don't be surprised."
with inclusive starts [0, 20] and exclusive ends [19, 39]. -/
theorem acronym_example_two_fragments :
    break_sentences_with_offsets usDocBytes =
      ([usFrag1, usFrag2], [0, 20], [19, 39]) := rfl

/-- Claim C5: offset-tracking normalization is restricted to composition
forms: for every valid UTF-8 input, `normalize_utf8_with_offsets` succeeds
when the form is NFC or NFKC (in any letter case) and fails when the form is
NFD or NFKD. -/
theorem normalize_with_offsets_form_restriction (s : List Nat) (f : String) :
    ((upperAscii f = "NFC" ∨ upperAscii f = "NFKC") →
      ∀ cps, utf8Decode s = some cps →
        (normalize_utf8_with_offsets s f).isOk = true) ∧
    ((upperAscii f = "NFD" ∨ upperAscii f = "NFKD") →
      normalize_utf8_with_offsets s f =
        Except.error NormErr.invalidNormalizationForm) := by
  constructor
  · rintro (h | h) cps hcps <;>
      simp [normalize_utf8_with_offsets, parseNormalizationForm, h, hcps,
        Except.isOk, Except.toBool]
  · rintro (h | h) <;>
      simp [normalize_utf8_with_offsets, parseNormalizationForm, h]

/-- Witness for claim C5 at concrete inputs: "nFkC" is accepted on the bytes
of "ß", and "NFD" is rejected. -/
theorem normalize_with_offsets_form_restriction_witness :
    (normalize_utf8_with_offsets [0xC3, 0x9F] "nFkC").isOk = true ∧
    normalize_utf8_with_offsets [0xC3, 0x9F] "NFD" =
      Except.error NormErr.invalidNormalizationForm :=
  ⟨(normalize_with_offsets_form_restriction [0xC3, 0x9F] "nFkC").1
      (Or.inr rfl) [0xDF] rfl,
   (normalize_with_offsets_form_restriction [0xC3, 0x9F] "NFD").2 (Or.inl rfl)⟩

/-- Claim C6: the normalization form name is matched case-insensitively (the
result of `normalize_utf8` depends only on the ASCII-uppercased form name,
so e.g. "nfkc" and "NFKC" agree for every string), and any form name outside
the four recognized names fails with `InvalidNormalizationForm` rather than
silently defaulting. -/
theorem normalize_form_name_case_insensitive :
    (∀ s f g, upperAscii f = upperAscii g →
      normalize_utf8 s f = normalize_utf8 s g) ∧
    (∀ s f, upperAscii f ∉ (["NFC", "NFD", "NFKC", "NFKD"] : List String) →
      normalize_utf8 s f = Except.error NormErr.invalidNormalizationForm) := by
  constructor
  · intro s f g h
    simp only [normalize_utf8, parseNormalizationForm, h]
  · intro s f h
    simp only [List.mem_cons, List.mem_singleton, not_or] at h
    obtain ⟨h1, h2, h3, h4, -⟩ := h
    simp [normalize_utf8, parseNormalizationForm, h1, h2, h3, h4]

/-- Witness for claim C6 at concrete inputs: "nfkc" and "NFKC" agree on the
bytes of "ß", and "cantfindme" fails with `InvalidNormalizationForm`. -/
theorem normalize_form_name_case_insensitive_witness :
    normalize_utf8 [0xC3, 0x9F] "nfkc" = normalize_utf8 [0xC3, 0x9F] "NFKC" ∧
    normalize_utf8 [0xC3, 0x9F] "cantfindme" =
      Except.error NormErr.invalidNormalizationForm :=
  ⟨normalize_form_name_case_insensitive.1 [0xC3, 0x9F] "nfkc" "NFKC" rfl,
   normalize_form_name_case_insensitive.2 [0xC3, 0x9F] "cantfindme"
     (by decide)⟩

/-- Claim C7: `case_fold_utf8` applies Unicode default case folding followed
by NFKC normalization to every valid UTF-8 input string; in particular,
folding " TExt to loWERcase! " yields " text to lowercase! " and folding
"ß" yields "ss". -/
theorem case_fold_is_fold_then_nfkc :
    (∀ s cps, utf8Decode s = some cps →
      case_fold_utf8 s =
        Except.ok (utf8Encode (applyForm NormForm.nfkc (cps.flatMap foldChar)))) ∧
    case_fold_utf8 (utf8Encode foldInCps) = Except.ok (utf8Encode foldOutCps) ∧
    case_fold_utf8 (utf8Encode [0xDF]) = Except.ok [0x73, 0x73] := by
  refine ⟨?_, rfl, rfl⟩
  intro s cps h
  simp [case_fold_utf8, h]

/-- Witness for claim C7's quantified part at a concrete input: the bytes of
"ß" decode, fold and NFKC-normalize to "ss". -/
theorem case_fold_is_fold_then_nfkc_witness :
    case_fold_utf8 [0xC3, 0x9F] =
      Except.ok (utf8Encode (applyForm NormForm.nfkc ([0xDF].flatMap foldChar))) :=
  case_fold_is_fold_then_nfkc.1 [0xC3, 0x9F] [0xDF] rfl

/-- Claim C10: for every document and every fragment returned by
`HeuristicBasedSentenceBreaker.break_sentences_with_offsets`, the returned
fragment text equals the byte substring of the document from the fragment's
start offset (inclusive) to its end offset (exclusive): the glue derives the
text from the offsets, so they can never disagree. -/
theorem fragment_text_matches_offsets (doc : List Nat) (i : Nat)
    (h : i < (break_sentences_with_offsets doc).1.length) :
    (break_sentences_with_offsets doc).1.getD i [] =
      (doc.drop ((break_sentences_with_offsets doc).2.1.getD i 0)).take
        ((break_sentences_with_offsets doc).2.2.getD i 0 -
          (break_sentences_with_offsets doc).2.1.getD i 0) := by
  have hl : i < (sentenceFragments doc).length := by
    simpa [break_sentences_with_offsets] using h
  have h1 : i < ((sentenceFragments doc).map
      (fun p => substrBytes doc p.1 (p.2 - p.1))).length := by
    simpa using hl
  have h2 : i < ((sentenceFragments doc).map (fun p => p.1)).length := by
    simpa using hl
  have h3 : i < ((sentenceFragments doc).map (fun p => p.2)).length := by
    simpa using hl
  simp only [break_sentences_with_offsets]
  rw [List.getD_eq_getElem _ _ h1, List.getD_eq_getElem _ _ h2,
    List.getD_eq_getElem _ _ h3]
  simp [List.getElem_map, substrBytes]

/-- Witness for claim C10 at a concrete document and index: the first
fragment of the acronym example. -/
theorem fragment_text_matches_offsets_witness :
    (break_sentences_with_offsets usDocBytes).1.getD 0 [] =
      (usDocBytes.drop ((break_sentences_with_offsets usDocBytes).2.1.getD 0 0)).take
        ((break_sentences_with_offsets usDocBytes).2.2.getD 0 0 -
          (break_sentences_with_offsets usDocBytes).2.1.getD 0 0) :=
  fragment_text_matches_offsets usDocBytes 0 (by decide)

/-- Characterization of a successful single-scalar decode: the decoded
codepoint is a Unicode scalar value, re-encodes to exactly the consumed
bytes, and strictly shrinks the input. -/
theorem decodeOne_spec (s : List Nat) (c : Nat) (rest : List Nat)
    (h : decodeOne s = some (c, rest)) :
    utf8EncodeChar c ++ rest = s ∧ ScalarOK c ∧ rest.length < s.length := by
  cases s with
  | nil => simp [decodeOne] at h
  | cons b1 t =>
    simp only [decodeOne] at h
    by_cases h1 : b1 < 0x80
    · rw [if_pos h1] at h
      obtain ⟨rfl, rfl⟩ : b1 = c ∧ t = rest := by
        simpa using h
      refine ⟨by simp [utf8EncodeChar, h1], ⟨by omega, by omega⟩, by simp only [List.length_cons]; omega⟩
    rw [if_neg h1] at h
    by_cases h2 : b1 < 0xC2
    · rw [if_pos h2] at h; exact absurd h (by simp)
    rw [if_neg h2] at h
    by_cases h3 : b1 < 0xE0
    · rw [if_pos h3] at h
      cases t with
      | nil => exact absurd h (by simp)
      | cons b2 t2 =>
        simp only at h
        by_cases hc : isCont b2
        · rw [if_pos hc] at h
          obtain ⟨rfl, rfl⟩ : (b1 - 0xC0) * 64 + (b2 - 0x80) = c ∧ t2 = rest := by
            simpa using h
          have hb2 : 0x80 ≤ b2 ∧ b2 < 0xC0 := by
            simpa [isCont, decide_eq_true_eq] using hc
          have e1 : ¬ (b1 - 0xC0) * 64 + (b2 - 0x80) < 0x80 := by omega
          have e2 : (b1 - 0xC0) * 64 + (b2 - 0x80) < 0x800 := by omega
          refine ⟨?_, ⟨by omega, by omega⟩, by simp only [List.length_cons]; omega⟩
          simp only [utf8EncodeChar, if_neg e1, if_pos e2]
          have f1 : 0xC0 + ((b1 - 0xC0) * 64 + (b2 - 0x80)) / 64 = b1 := by omega
          have f2 : 0x80 + ((b1 - 0xC0) * 64 + (b2 - 0x80)) % 64 = b2 := by omega
          rw [f1, f2]
          rfl
        · rw [if_neg hc] at h; exact absurd h (by simp)
    rw [if_neg h3] at h
    by_cases h4 : b1 < 0xF0
    · rw [if_pos h4] at h
      match t with
      | [] => exact absurd h (by simp)
      | [b2] => exact absurd h (by simp)
      | b2 :: b3 :: t3 =>
        simp only at h
        split_ifs at h with hcond
        obtain ⟨hc2, hc3, hge, hsur⟩ := hcond
        obtain ⟨rfl, rfl⟩ :
            (b1 - 0xE0) * 4096 + (b2 - 0x80) * 64 + (b3 - 0x80) = c ∧ t3 = rest := by
          simpa using h
        have hb2 : 0x80 ≤ b2 ∧ b2 < 0xC0 := by
          simpa [isCont, decide_eq_true_eq] using hc2
        have hb3 : 0x80 ≤ b3 ∧ b3 < 0xC0 := by
          simpa [isCont, decide_eq_true_eq] using hc3
        have e1 : ¬ (b1 - 0xE0) * 4096 + (b2 - 0x80) * 64 + (b3 - 0x80) < 0x80 := by
          omega
        have e2 : ¬ (b1 - 0xE0) * 4096 + (b2 - 0x80) * 64 + (b3 - 0x80) < 0x800 := by
          omega
        have e3 : (b1 - 0xE0) * 4096 + (b2 - 0x80) * 64 + (b3 - 0x80) < 0x10000 := by
          omega
        refine ⟨?_, ⟨by omega, by omega⟩, by simp only [List.length_cons]; omega⟩
        simp only [utf8EncodeChar, if_neg e1, if_neg e2, if_pos e3]
        have f1 : 0xE0 +
            ((b1 - 0xE0) * 4096 + (b2 - 0x80) * 64 + (b3 - 0x80)) / 4096 = b1 := by
          omega
        have f2 : 0x80 +
            ((b1 - 0xE0) * 4096 + (b2 - 0x80) * 64 + (b3 - 0x80)) / 64 % 64 = b2 := by
          omega
        have f3 : 0x80 +
            ((b1 - 0xE0) * 4096 + (b2 - 0x80) * 64 + (b3 - 0x80)) % 64 = b3 := by
          omega
        rw [f1, f2, f3]
        rfl
    rw [if_neg h4] at h
    by_cases h5 : b1 < 0xF5
    · rw [if_pos h5] at h
      match t with
      | [] => exact absurd h (by simp)
      | [b2] => exact absurd h (by simp)
      | [b2, b3] => exact absurd h (by simp)
      | b2 :: b3 :: b4 :: t4 =>
        simp only at h
        split_ifs at h with hcond
        obtain ⟨hc2, hc3, hc4, hge, hlt⟩ := hcond
        obtain ⟨rfl, rfl⟩ :
            (b1 - 0xF0) * 0x40000 + (b2 - 0x80) * 4096 + (b3 - 0x80) * 64 +
              (b4 - 0x80) = c ∧ t4 = rest := by
          simpa using h
        have hb2 : 0x80 ≤ b2 ∧ b2 < 0xC0 := by
          simpa [isCont, decide_eq_true_eq] using hc2
        have hb3 : 0x80 ≤ b3 ∧ b3 < 0xC0 := by
          simpa [isCont, decide_eq_true_eq] using hc3
        have hb4 : 0x80 ≤ b4 ∧ b4 < 0xC0 := by
          simpa [isCont, decide_eq_true_eq] using hc4
        have e1 : ¬ (b1 - 0xF0) * 0x40000 + (b2 - 0x80) * 4096 + (b3 - 0x80) * 64 +
            (b4 - 0x80) < 0x80 := by omega
        have e2 : ¬ (b1 - 0xF0) * 0x40000 + (b2 - 0x80) * 4096 + (b3 - 0x80) * 64 +
            (b4 - 0x80) < 0x800 := by omega
        have e3 : ¬ (b1 - 0xF0) * 0x40000 + (b2 - 0x80) * 4096 + (b3 - 0x80) * 64 +
            (b4 - 0x80) < 0x10000 := by omega
        refine ⟨?_, ⟨by omega, by omega⟩, by simp only [List.length_cons]; omega⟩
        simp only [utf8EncodeChar, if_neg e1, if_neg e2, if_neg e3]
        have f1 : 0xF0 + ((b1 - 0xF0) * 0x40000 + (b2 - 0x80) * 4096 +
            (b3 - 0x80) * 64 + (b4 - 0x80)) / 0x40000 = b1 := by omega
        have f2 : 0x80 + ((b1 - 0xF0) * 0x40000 + (b2 - 0x80) * 4096 +
            (b3 - 0x80) * 64 + (b4 - 0x80)) / 4096 % 64 = b2 := by omega
        have f3 : 0x80 + ((b1 - 0xF0) * 0x40000 + (b2 - 0x80) * 4096 +
            (b3 - 0x80) * 64 + (b4 - 0x80)) / 64 % 64 = b3 := by omega
        have f4 : 0x80 + ((b1 - 0xF0) * 0x40000 + (b2 - 0x80) * 4096 +
            (b3 - 0x80) * 64 + (b4 - 0x80)) % 64 = b4 := by omega
        rw [f1, f2, f3, f4]
        rfl
    · rw [if_neg h5] at h; exact absurd h (by simp)

/-- Decoding is left-inverse to encoding: a successfully decoded byte string
re-encodes to itself (the decoder accepts only canonical UTF-8). -/
theorem utf8DecodeGo_encode :
    ∀ (fuel : Nat) (s cps : List Nat),
      utf8DecodeGo fuel s = some cps → utf8Encode cps = s := by
  intro fuel
  induction fuel with
  | zero =>
    intro s cps h
    cases s with
    | nil =>
      obtain rfl : ([] : List Nat) = cps := Option.some.inj h
      rfl
    | cons b t => exact absurd h (by simp [utf8DecodeGo])
  | succ n ih =>
    intro s cps h
    cases s with
    | nil =>
      obtain rfl : ([] : List Nat) = cps := Option.some.inj h
      rfl
    | cons b1 t =>
      simp only [utf8DecodeGo] at h
      cases hd : decodeOne (b1 :: t) with
      | none => rw [hd] at h; exact absurd h (by simp)
      | some pr =>
        obtain ⟨c, rest⟩ := pr
        rw [hd] at h
        simp only at h
        obtain ⟨l, hl, rfl⟩ := Option.map_eq_some'.mp h
        have hspec := decodeOne_spec _ _ _ hd
        have hrec := ih rest l hl
        simp only [utf8Encode, List.flatMap_cons]
        rw [show l.flatMap utf8EncodeChar = rest from hrec]
        exact hspec.1

/-- All codepoints produced by a successful decode are Unicode scalar
values. -/
theorem utf8DecodeGo_scalar :
    ∀ (fuel : Nat) (s cps : List Nat),
      utf8DecodeGo fuel s = some cps → ∀ c ∈ cps, ScalarOK c := by
  intro fuel
  induction fuel with
  | zero =>
    intro s cps h
    cases s with
    | nil =>
      obtain rfl : ([] : List Nat) = cps := Option.some.inj h
      simp
    | cons b t => exact absurd h (by simp [utf8DecodeGo])
  | succ n ih =>
    intro s cps h
    cases s with
    | nil =>
      obtain rfl : ([] : List Nat) = cps := Option.some.inj h
      simp
    | cons b1 t =>
      simp only [utf8DecodeGo] at h
      cases hd : decodeOne (b1 :: t) with
      | none => rw [hd] at h; exact absurd h (by simp)
      | some pr =>
        obtain ⟨c, rest⟩ := pr
        rw [hd] at h
        simp only at h
        obtain ⟨l, hl, rfl⟩ := Option.map_eq_some'.mp h
        intro x hx
        rcases List.mem_cons.mp hx with rfl | hx2
        · exact (decodeOne_spec _ _ _ hd).2.1
        · exact ih rest l hl x hx2

/-- Decoded byte strings re-encode to themselves. -/
theorem utf8Decode_encode (s cps : List Nat) (h : utf8Decode s = some cps) :
    utf8Encode cps = s :=
  utf8DecodeGo_encode s.length s cps h

/-- Decoded codepoint sequences consist of Unicode scalar values. -/
theorem utf8Decode_scalar (s cps : List Nat) (h : utf8Decode s = some cps) :
    ∀ c ∈ cps, ScalarOK c :=
  utf8DecodeGo_scalar s.length s cps h

/-- Decoding one scalar from its own encoding recovers it together with the
untouched remainder. -/
theorem decodeOne_encodeChar (c : Nat) (hc : ScalarOK c) (rest : List Nat) :
    decodeOne (utf8EncodeChar c ++ rest) = some (c, rest) := by
  obtain ⟨hlt, hsur⟩ := hc
  unfold utf8EncodeChar
  by_cases h1 : c < 0x80
  · rw [if_pos h1]
    simp [decodeOne, h1]
  rw [if_neg h1]
  by_cases h2 : c < 0x800
  · rw [if_pos h2]
    have hb1a : ¬ 0xC0 + c / 64 < 0x80 := by omega
    have hb1b : ¬ 0xC0 + c / 64 < 0xC2 := by omega
    have hb1c : 0xC0 + c / 64 < 0xE0 := by omega
    have hcont : isCont (0x80 + c % 64) = true := by
      simp only [isCont, decide_eq_true_eq]; omega
    simp only [List.cons_append, List.nil_append, decodeOne, if_neg hb1a,
      if_neg hb1b, if_pos hb1c, hcont, if_pos trivial, Option.some.injEq,
      Prod.mk.injEq]
    exact ⟨by omega, trivial⟩
  rw [if_neg h2]
  by_cases h3 : c < 0x10000
  · rw [if_pos h3]
    have hb1a : ¬ 0xE0 + c / 4096 < 0x80 := by omega
    have hb1b : ¬ 0xE0 + c / 4096 < 0xC2 := by omega
    have hb1c : ¬ 0xE0 + c / 4096 < 0xE0 := by omega
    have hb1d : 0xE0 + c / 4096 < 0xF0 := by omega
    have hcont2 : isCont (0x80 + c / 64 % 64) = true := by
      simp only [isCont, decide_eq_true_eq]; omega
    have hcont3 : isCont (0x80 + c % 64) = true := by
      simp only [isCont, decide_eq_true_eq]; omega
    have hval : (0xE0 + c / 4096 - 0xE0) * 4096 + (0x80 + c / 64 % 64 - 0x80) * 64 +
        (0x80 + c % 64 - 0x80) = c := by omega
    simp only [List.cons_append, List.nil_append, decodeOne, if_neg hb1a,
      if_neg hb1b, if_neg hb1c, if_pos hb1d, hval, hcont2, hcont3]
    rw [if_pos (show True ∧ True ∧ 0x800 ≤ c ∧ ¬(0xD800 ≤ c ∧ c < 0xE000) from
      ⟨trivial, trivial, by omega, by omega⟩)]
  · rw [if_neg h3]
    have hb1a : ¬ 0xF0 + c / 0x40000 < 0x80 := by omega
    have hb1b : ¬ 0xF0 + c / 0x40000 < 0xC2 := by omega
    have hb1c : ¬ 0xF0 + c / 0x40000 < 0xE0 := by omega
    have hb1d : ¬ 0xF0 + c / 0x40000 < 0xF0 := by omega
    have hb1e : 0xF0 + c / 0x40000 < 0xF5 := by omega
    have hcont2 : isCont (0x80 + c / 4096 % 64) = true := by
      simp only [isCont, decide_eq_true_eq]; omega
    have hcont3 : isCont (0x80 + c / 64 % 64) = true := by
      simp only [isCont, decide_eq_true_eq]; omega
    have hcont4 : isCont (0x80 + c % 64) = true := by
      simp only [isCont, decide_eq_true_eq]; omega
    have hval : (0xF0 + c / 0x40000 - 0xF0) * 0x40000 +
        (0x80 + c / 4096 % 64 - 0x80) * 4096 + (0x80 + c / 64 % 64 - 0x80) * 64 +
        (0x80 + c % 64 - 0x80) = c := by omega
    simp only [List.cons_append, List.nil_append, decodeOne, if_neg hb1a,
      if_neg hb1b, if_neg hb1c, if_neg hb1d, if_pos hb1e, hval, hcont2, hcont3,
      hcont4]
    rw [if_pos (show True ∧ True ∧ True ∧ 0x10000 ≤ c ∧ c < 0x110000 from
      ⟨trivial, trivial, trivial, by omega, by omega⟩)]

/-- An encoded scalar occupies at least one byte. -/
theorem utf8EncodeChar_ne_nil (c : Nat) : 1 ≤ (utf8EncodeChar c).length := by
  unfold utf8EncodeChar
  split_ifs <;> simp

/-- Encoding is right-inverse to decoding on scalar sequences, at any
sufficient fuel. -/
theorem utf8DecodeGo_of_encode :
    ∀ (fuel : Nat) (cps : List Nat), (∀ c ∈ cps, ScalarOK c) →
      (utf8Encode cps).length ≤ fuel →
      utf8DecodeGo fuel (utf8Encode cps) = some cps := by
  intro fuel
  induction fuel with
  | zero =>
    intro cps hsc hlen
    cases cps with
    | nil => rfl
    | cons c l =>
      exfalso
      have h1 := utf8EncodeChar_ne_nil c
      have henc : utf8Encode (c :: l) = utf8EncodeChar c ++ utf8Encode l := by
        simp [utf8Encode]
      rw [henc, List.length_append] at hlen
      omega
  | succ n ih =>
    intro cps hsc hlen
    cases cps with
    | nil => rfl
    | cons c l =>
      have hc : ScalarOK c := hsc c (by simp)
      have henc : utf8Encode (c :: l) = utf8EncodeChar c ++ utf8Encode l := by
        simp [utf8Encode, List.flatMap_cons]
      rw [henc]
      have h1 := utf8EncodeChar_ne_nil c
      have hlen2 : (utf8Encode l).length ≤ n := by
        rw [henc] at hlen
        simp only [List.length_append] at hlen
        omega
      cases he : utf8EncodeChar c ++ utf8Encode l with
      | nil =>
        exfalso
        have : (utf8EncodeChar c ++ utf8Encode l).length = 0 := by rw [he]; rfl
        simp only [List.length_append] at this
        omega
      | cons b t =>
        rw [← he]
        have hone := decodeOne_encodeChar c hc (utf8Encode l)
        rw [he] at hone ⊢
        simp only [utf8DecodeGo, hone]
        rw [← he] at hone
        rw [ih l (fun x hx => hsc x (List.mem_cons_of_mem _ hx)) hlen2]
        rfl

/-- Encoding a scalar sequence then decoding recovers it. -/
theorem utf8Decode_of_encode (cps : List Nat) (hsc : ∀ c ∈ cps, ScalarOK c) :
    utf8Decode (utf8Encode cps) = some cps :=
  utf8DecodeGo_of_encode (utf8Encode cps).length cps hsc le_rfl

/-- The encoding of a concatenation is the concatenation of the encodings. -/
theorem utf8Encode_flatten (L : List (List Nat)) :
    utf8Encode L.flatten = (L.map utf8Encode).flatten := by
  induction L with
  | nil => rfl
  | cons x xs ih =>
    simp only [List.flatten_cons, List.map_cons, utf8Encode,
      List.flatMap_append] at ih ⊢
    rw [ih]

/-- Clustering loses no codepoints: flattening the clusters recovers the
accumulated prefix followed by the remaining input. -/
theorem clusterGo_flatten :
    ∀ (rest cur : List Nat), (clusterGo cur rest).flatten = cur.reverse ++ rest := by
  intro rest
  induction rest with
  | nil => intro cur; simp [clusterGo]
  | cons c r ih =>
    intro cur
    simp only [clusterGo]
    split_ifs with h
    · simp only [List.flatten_cons, ih [c]]
      simp
    · rw [ih (c :: cur)]
      simp

/-- Flattening the cluster decomposition recovers the codepoint sequence. -/
theorem clusterCps_flatten (l : List Nat) : (clusterCps l).flatten = l := by
  cases l with
  | nil => rfl
  | cons c r =>
    rw [clusterCps, clusterGo_flatten]
    simp

/-- The output length a span records. -/
theorem spanOfCluster_outLen (F : NormForm) (cl : List Nat) :
    (spanOfCluster F cl).outLen = (utf8Encode (applyForm F cl)).length := by
  simp only [spanOfCluster]
  split_ifs with h
  · simp [Span.outLen, h]
  · rfl

/-- The input length a span records. -/
theorem spanOfCluster_inLen (F : NormForm) (cl : List Nat) :
    (spanOfCluster F cl).inLen = (utf8Encode cl).length := by
  simp only [spanOfCluster]
  split_ifs <;> rfl

/-- The resolution walk never returns less than its accumulator. -/
theorem resolveGo_ge :
    ∀ (spans : List Span) (n iAcc : Nat), iAcc ≤ resolveGo spans n iAcc := by
  intro spans
  induction spans with
  | nil => intro n iAcc; simp [resolveGo]
  | cons sp rest ih =>
    intro n iAcc
    cases sp with
    | same k =>
      simp only [resolveGo]
      split
      · omega
      · exact le_trans (by omega) (ih (n - k) (iAcc + k))
    | repl ol il =>
      simp only [resolveGo]
      split
      · omega
      · exact le_trans (by omega) (ih (n - ol) (iAcc + il))

/-- The resolution walk is monotone in the requested output offset. -/
theorem resolveGo_mono :
    ∀ (spans : List Span) (n1 n2 iAcc : Nat), n1 ≤ n2 →
      resolveGo spans n1 iAcc ≤ resolveGo spans n2 iAcc := by
  intro spans
  induction spans with
  | nil => intro n1 n2 iAcc h; simp [resolveGo]
  | cons sp rest ih =>
    intro n1 n2 iAcc h
    cases sp with
    | same k =>
      simp only [resolveGo]
      by_cases h1 : n1 < k
      · rw [if_pos h1]
        by_cases h2 : n2 < k
        · rw [if_pos h2]; omega
        · rw [if_neg h2]
          exact le_trans (by omega) (resolveGo_ge rest (n2 - k) (iAcc + k))
      · rw [if_neg h1, if_neg (by omega)]
        exact ih (n1 - k) (n2 - k) (iAcc + k) (by omega)
    | repl ol il =>
      simp only [resolveGo]
      by_cases h1 : n1 < ol
      · rw [if_pos h1]
        by_cases h2 : n2 < ol
        · rw [if_pos h2]
        · rw [if_neg h2]
          exact le_trans (by omega) (resolveGo_ge rest (n2 - ol) (iAcc + il))
      · rw [if_neg h1, if_neg (by omega)]
        exact ih (n1 - ol) (n2 - ol) (iAcc + il) (by omega)

/-- At or beyond the total output length, the resolution walk returns the
accumulated input length plus the total input length of the records. -/
theorem resolveGo_past :
    ∀ (spans : List Span) (n iAcc : Nat), (spans.map Span.outLen).sum ≤ n →
      resolveGo spans n iAcc = iAcc + (spans.map Span.inLen).sum := by
  intro spans
  induction spans with
  | nil => intro n iAcc h; simp [resolveGo]
  | cons sp rest ih =>
    intro n iAcc h
    cases sp with
    | same k =>
      simp only [List.map_cons, List.sum_cons, Span.outLen] at h
      have hrest : (rest.map Span.outLen).sum ≤ n - k := by omega
      simp only [resolveGo, if_neg (show ¬ n < k by omega)]
      rw [ih (n - k) (iAcc + k) hrest]
      simp [Span.inLen]
      omega
    | repl ol il =>
      simp only [List.map_cons, List.sum_cons, Span.outLen] at h
      have hrest : (rest.map Span.outLen).sum ≤ n - ol := by omega
      simp only [resolveGo, if_neg (show ¬ n < ol by omega)]
      rw [ih (n - ol) (iAcc + il) hrest]
      simp [Span.inLen]
      omega

/-- The offset map built by a successful `normalize_utf8_with_offsets` call
covers exactly the output bytes on the output side and exactly the source
bytes on the input side. -/
theorem withOffsets_shape (s : List Nat) (f : String) (out : List Nat)
    (m : OffsetMap) (h : normalize_utf8_with_offsets s f = Except.ok (out, m)) :
    (m.spans.map Span.outLen).sum = out.length ∧
    (m.spans.map Span.inLen).sum = s.length := by
  unfold normalize_utf8_with_offsets at h
  cases hp : parseNormalizationForm f with
  | none =>
    simp only [hp] at h
    exact (Except.noConfusion h)
  | some F =>
    simp only [hp] at h
    split_ifs at h with hF
    cases hd : utf8Decode s with
    | none =>
      simp only [hd] at h
      exact (Except.noConfusion h)
    | some cps =>
      simp only [hd, Except.ok.injEq, Prod.mk.injEq] at h
      obtain ⟨hout, hm⟩ := h
      subst hout hm
      constructor
      · simp only [List.map_map, List.length_flatten]
        congr 1
        exact List.map_eq_map_iff.mpr
          (fun a _ => spanOfCluster_outLen F a)
      · have e2 : ((clusterCps cps).map (spanOfCluster F)).map Span.inLen =
            (clusterCps cps).map (fun cl => (utf8Encode cl).length) := by
          rw [List.map_map]
          exact List.map_eq_map_iff.mpr (fun a _ => spanOfCluster_inLen F a)
        simp only [e2]
        have e3 : (clusterCps cps).map (fun cl => (utf8Encode cl).length) =
            ((clusterCps cps).map utf8Encode).map List.length := by
          rw [List.map_map]; rfl
        rw [e3, ← List.length_flatten, ← utf8Encode_flatten, clusterCps_flatten]
        rw [utf8Decode_encode s cps hd]

/-- Claim C1 (amended): for every offset map produced by
`normalize_utf8_with_offsets` and every requested output offset `o`,
`find_source_offsets` fails with `OffsetOutOfRange` when `o < 0`; but an
offset with `o ≥ len(output)` (in particular `o > len(output)`) does not
fail — it resolves to the byte length of the pre-normalization input. -/
theorem find_source_offset_range (s : List Nat) (f : String) (out : List Nat)
    (m : OffsetMap) (h : normalize_utf8_with_offsets s f = Except.ok (out, m))
    (o : Int) :
    (o < 0 → find_source_offset m o = Except.error NormErr.offsetOutOfRange) ∧
    ((out.length : Int) ≤ o → find_source_offset m o = Except.ok s.length) := by
  constructor
  · intro hneg
    simp [find_source_offset, hneg]
  · intro hge
    have h0 : ¬ o < 0 := by omega
    obtain ⟨ho, hi⟩ := withOffsets_shape s f out m h
    rw [find_source_offset, if_neg h0]
    have hpast : (m.spans.map Span.outLen).sum ≤ o.toNat := by
      rw [ho]; omega
    rw [resolveGo_past m.spans o.toNat 0 hpast, Nat.zero_add, hi]

/-- Witness for claim C1 (amended) at the test input: offset -1 fails and
offset 22 (beyond the 20-byte output) resolves to 36, the input length. -/
theorem find_source_offset_range_witness :
    find_source_offset kadokawaMap (-1) =
      Except.error NormErr.offsetOutOfRange ∧
    find_source_offset kadokawaMap 22 = Except.ok kadokawaBytes.length :=
  ⟨(find_source_offset_range kadokawaBytes "NFKC" kadokawaNorm kadokawaMap
      rfl (-1)).1 (by decide),
   (find_source_offset_range kadokawaBytes "NFKC" kadokawaNorm kadokawaMap
      rfl 22).2 (by decide)⟩

/-- Claim C1 counterexample: at the repository's own test input (the NFKC
offset map of "株式会社ＫＡＤＯＫＡＷＡ", whose normalized output has 20
bytes) the requested output offset 22 exceeds the output length, yet
`find_source_offsets` does not fail with `OffsetOutOfRange`: it returns 36
(matching `FindSourceOffsetsTest.test_one_string_rank0_input`). -/
theorem find_source_offset_no_failure_past_end :
    normalize_utf8_with_offsets kadokawaBytes "NFKC" =
      Except.ok (kadokawaNorm, kadokawaMap) ∧
    kadokawaNorm.length = 20 ∧
    find_source_offset kadokawaMap 22 = Except.ok 36 ∧
    find_source_offset kadokawaMap 22 ≠ Except.error NormErr.offsetOutOfRange :=
  ⟨rfl, rfl, rfl, by intro hc; exact Except.noConfusion hc⟩

/-- Claim C4: for every offset map produced by `normalize_utf8_with_offsets`
from one string, resolution is monotone: for any two output offsets
`o1 ≤ o2` that both resolve, the input offset returned for `o1` is at most
the one returned for `o2`. -/
theorem find_source_offset_monotone (s : List Nat) (f : String)
    (out : List Nat) (m : OffsetMap)
    (h : normalize_utf8_with_offsets s f = Except.ok (out, m))
    (o1 o2 : Int) (h12 : o1 ≤ o2) (v1 v2 : Nat)
    (h1 : find_source_offset m o1 = Except.ok v1)
    (h2 : find_source_offset m o2 = Except.ok v2) : v1 ≤ v2 := by
  unfold find_source_offset at h1 h2
  by_cases c1 : o1 < 0
  · rw [if_pos c1] at h1
    exact absurd h1 (by simp)
  by_cases c2 : o2 < 0
  · rw [if_pos c2] at h2
    exact absurd h2 (by simp)
  rw [if_neg c1] at h1
  rw [if_neg c2] at h2
  obtain rfl : resolveGo m.spans o1.toNat 0 = v1 := Except.ok.inj h1
  obtain rfl : resolveGo m.spans o2.toNat 0 = v2 := Except.ok.inj h2
  exact resolveGo_mono m.spans o1.toNat o2.toNat 0 (Int.toNat_le_toNat h12)

/-- Witness for claim C4 at the test input's offset map: offsets 13 ≤ 22
resolve to 15 ≤ 36. -/
theorem find_source_offset_monotone_witness : (15 : Nat) ≤ 36 :=
  find_source_offset_monotone kadokawaBytes "NFKC" kadokawaNorm kadokawaMap
    rfl 13 22 (by decide) 15 36 rfl rfl

/-- NFKC-normalized bytes of "ＫＡＤＯＫＡＷＡ": ASCII "KADOKAWA". -/
def kadoOnlyNorm : List Nat := [75, 65, 68, 79, 75, 65, 87, 65]

/-- Mapping an `Except`-valued function cannot turn success into an error:
the mapped result is an error exactly when the original is. -/
theorem exceptMap_error_iff {α β : Type} (x : Except NormErr α) (g : α → β)
    (e : NormErr) : x.map g = Except.error e ↔ x = Except.error e := by
  cases x <;> simp [Except.map]

/-- `mapE` succeeds whenever the function succeeds on every element. -/
theorem mapE_ok_of {α β : Type} (f : α → Except NormErr β) :
    ∀ (l : List α), (∀ a ∈ l, ∃ b, f a = Except.ok b) →
      ∃ bs, mapE f l = Except.ok bs := by
  intro l
  induction l with
  | nil => intro h; exact ⟨[], rfl⟩
  | cons a t ih =>
    intro h
    obtain ⟨b, hb⟩ := h a (by simp)
    obtain ⟨bs, hbs⟩ := ih (fun x hx => h x (List.mem_cons_of_mem _ hx))
    exact ⟨b :: bs, by simp [mapE, hb, hbs, Except.map]⟩

/-- With in-range offsets, the batched resolution core raises
`GroupingMismatch` exactly when the number of non-empty offset rows differs
from the number of offset maps. -/
theorem resolveRows_grouping_iff :
    ∀ (rows : List (List Int)) (maps : List OffsetMap),
      (∀ row ∈ rows, ∀ o ∈ row, 0 ≤ o) →
      (resolveRows maps rows = Except.error NormErr.groupingMismatch ↔
        (rows.filter (fun row => !row.isEmpty)).length ≠ maps.length) := by
  intro rows
  induction rows with
  | nil =>
    intro maps hnn
    cases maps with
    | nil => simp [resolveRows]
    | cons m ms => simp [resolveRows]
  | cons row rows ih =>
    intro maps hnn
    by_cases hrow : row = []
    · subst hrow
      have hmap := ih maps (fun r hr => hnn r (List.mem_cons_of_mem _ hr))
      rw [show resolveRows maps ([] :: rows) =
            (resolveRows maps rows).map (fun rs => [] :: rs) from by
          simp [resolveRows]]
      rw [exceptMap_error_iff, hmap]
      simp [List.filter_cons]
    · cases maps with
      | nil =>
        simp only [resolveRows, if_neg hrow, List.filter_cons]
        have : (!row.isEmpty) = true := by
          simp [List.isEmpty_iff, hrow]
        rw [this]
        simp
      | cons m ms =>
        have hnonerr : ∀ o ∈ row, ∃ v, find_source_offset m o = Except.ok v := by
          intro o ho
          have := hnn row (by simp) o ho
          exact ⟨resolveGo m.spans o.toNat 0, by
            simp [find_source_offset, show ¬ o < 0 by omega]⟩
        obtain ⟨vs, hvs⟩ := mapE_ok_of (find_source_offset m) row hnonerr
        simp only [resolveRows, if_neg hrow, hvs]
        rw [exceptMap_error_iff]
        have hmap := ih ms (fun r hr => hnn r (List.mem_cons_of_mem _ hr))
        rw [hmap]
        simp only [List.filter_cons, show (!row.isEmpty) = true by
          simp [List.isEmpty_iff, hrow]]
        simp [Nat.succ_ne_succ]

/-- Claim C8 (amended): with in-range offsets, `find_source_offsets` fails
with `GroupingMismatch` exactly when the number of non-empty innermost
offset groups differs from the number of offset maps; when the counts agree
the groups are paired with the maps in order regardless of their position in
the nesting, so a structural misalignment with equal counts is silently
resolved against a differently-positioned document rather than rejected. -/
theorem find_source_offsets_grouping_iff (maps : List OffsetMap)
    (offs : List (List (List Int)))
    (hnn : ∀ row ∈ offs.flatten, ∀ o ∈ row, 0 ≤ o) :
    (find_source_offsets maps offs = Except.error NormErr.groupingMismatch ↔
      (offs.flatten.filter (fun row => !row.isEmpty)).length ≠ maps.length) := by
  unfold find_source_offsets
  rw [exceptMap_error_iff]
  exact resolveRows_grouping_iff offs.flatten maps hnn

/-- Witness for claim C8 (amended) at a concrete input: one map against one
non-empty and one empty group — counts agree, so no `GroupingMismatch`. -/
theorem find_source_offsets_grouping_iff_witness :
    find_source_offsets [kabushikiMap] [[[0, 1]], [[]]] =
        Except.error NormErr.groupingMismatch ↔
      (([[0, 1], []] : List (List Int)).filter
        (fun row => !row.isEmpty)).length ≠ [kabushikiMap].length :=
  find_source_offsets_grouping_iff [kabushikiMap] [[[0, 1]], [[]]] (by decide)

/-- Claim C8 counterexample: the input of
`FindSourceOffsetsTest.test_dimension_matched_but_elements_not_aligned` —
documents `[["株式会社"], [], ["ＫＡＤＯＫＡＷＡ"]]` (outer group sizes
[1, 0, 1]) and offsets `[[[0, 1, 2]], [[0, 1, 2]], [[]]]` (outer group sizes
[1, 1, 1]): the nesting misaligns, yet the call does not fail — the
non-empty offset group at position 1 is silently resolved against the
document from position 2, returning [[0, 3, 6]] from the
"ＫＡＤＯＫＡＷＡ" map. -/
theorem find_source_offsets_silently_realigns :
    c8Docs.map List.length ≠ c8Offs.map List.length ∧
    mapE (fun d => normalize_utf8_with_offsets d "NFKC") c8Docs.flatten =
      Except.ok [(kabushikiBytes, kabushikiMap), (kadoOnlyNorm, kadoOnlyMap)] ∧
    find_source_offsets [kabushikiMap, kadoOnlyMap] c8Offs =
      Except.ok [[[0, 1, 2]], [[0, 3, 6]], [[]]] ∧
    find_source_offsets [kabushikiMap, kadoOnlyMap] c8Offs ≠
      Except.error NormErr.groupingMismatch :=
  ⟨by decide, rfl, rfl, by intro hc; exact Except.noConfusion hc⟩

/-- A successful association-list lookup comes from a member entry. -/
theorem lookup_mem {α β : Type} [BEq α] [LawfulBEq α] :
    ∀ (l : List (α × β)) (k : α) (v : β), l.lookup k = some v → (k, v) ∈ l := by
  intro l
  induction l with
  | nil => intro k v h; simp [List.lookup] at h
  | cons p t ih =>
    intro k v h
    obtain ⟨a, b⟩ := p
    rw [List.lookup] at h
    by_cases hk : k == a
    · simp only [hk] at h
      obtain rfl : b = v := Option.some.inj h
      obtain rfl : k = a := eq_of_beq hk
      exact List.mem_cons_self _ _
    · simp only [Bool.not_eq_true] at hk
      simp only [hk] at h
      exact List.mem_cons_of_mem _ (ih k v h)

/-- The canonical decomposition table is fully decomposed: every codepoint
appearing in an entry's decomposition has no decomposition of its own. -/
theorem dcTbl_flat : ∀ p ∈ dcTbl, ∀ d ∈ p.2, dcTbl.lookup d = none := by decide

/-- The compatibility decomposition table is fully decomposed. -/
theorem dkTbl_flat : ∀ p ∈ dkTbl, ∀ d ∈ p.2, dkTbl.lookup d = none := by decide

/-- Composition coherence for the canonical table: every primary composite
decomposes to the decomposition of its starter followed by its mark. -/
theorem compTbl_coherent_dc :
    ∀ q ∈ compTbl, decompChar dcTbl q.2 = decompChar dcTbl q.1.1 ++ [q.1.2] := by
  decide

/-- Composition coherence for the compatibility table. -/
theorem compTbl_coherent_dk :
    ∀ q ∈ compTbl, decompChar dkTbl q.2 = decompChar dkTbl q.1.1 ++ [q.1.2] := by
  decide

/-- Every codepoint in a canonical-table decomposition is a scalar value. -/
theorem dcTbl_scalar : ∀ p ∈ dcTbl, ∀ d ∈ p.2, ScalarOK d := by decide

/-- Every codepoint in a compatibility-table decomposition is a scalar
value. -/
theorem dkTbl_scalar : ∀ p ∈ dkTbl, ∀ d ∈ p.2, ScalarOK d := by decide

/-- Every primary composite is a scalar value. -/
theorem compTbl_scalar : ∀ q ∈ compTbl, ScalarOK q.2 := by decide

/-- Elements of a full decomposition carry no further decomposition. -/
theorem decompAll_flat (tbl : List (Nat × List Nat))
    (hflat : ∀ p ∈ tbl, ∀ d ∈ p.2, tbl.lookup d = none) (l : List Nat) :
    ∀ c ∈ decompAll tbl l, tbl.lookup c = none := by
  intro c hc
  rw [decompAll, List.mem_flatMap] at hc
  obtain ⟨a, -, hmem⟩ := hc
  unfold decompChar at hmem
  cases hl : tbl.lookup a with
  | none =>
    rw [hl] at hmem
    simp only [Option.getD_none, List.mem_singleton] at hmem
    subst hmem
    exact hl
  | some ds =>
    rw [hl] at hmem
    simp only [Option.getD_some] at hmem
    exact hflat (a, ds) (lookup_mem tbl a ds hl) c hmem

/-- Decomposition is the identity on decomposition-free sequences. -/
theorem decompAll_of_flat (tbl : List (Nat × List Nat)) :
    ∀ (l : List Nat), (∀ c ∈ l, tbl.lookup c = none) → decompAll tbl l = l := by
  intro l
  induction l with
  | nil => intro h; rfl
  | cons c t ih =>
    intro h
    have hc := h c (by simp)
    have ht := ih (fun x hx => h x (List.mem_cons_of_mem _ hx))
    simp only [decompAll, List.flatMap_cons] at ht ⊢
    rw [ht, decompChar, hc]
    rfl

/-- Scalars in a full decomposition: every produced codepoint is either an
input codepoint or drawn from the table. -/
theorem decompAll_scalar (tbl : List (Nat × List Nat))
    (hts : ∀ p ∈ tbl, ∀ d ∈ p.2, ScalarOK d) (l : List Nat)
    (hl : ∀ c ∈ l, ScalarOK c) : ∀ c ∈ decompAll tbl l, ScalarOK c := by
  intro c hc
  rw [decompAll, List.mem_flatMap] at hc
  obtain ⟨a, ha, hmem⟩ := hc
  unfold decompChar at hmem
  cases hlk : tbl.lookup a with
  | none =>
    rw [hlk] at hmem
    simp only [Option.getD_none, List.mem_singleton] at hmem
    subst hmem
    exact hl _ ha
  | some ds =>
    rw [hlk] at hmem
    simp only [Option.getD_some] at hmem
    exact hts (a, ds) (lookup_mem tbl a ds hlk) c hmem

/-- Membership through one sinking step. -/
theorem mem_sinkCC (c x : Nat) :
    ∀ (l : List Nat), x ∈ sinkCC c l ↔ x = c ∨ x ∈ l := by
  intro l
  induction l with
  | nil => simp [sinkCC]
  | cons d t ih =>
    simp only [sinkCC]
    split_ifs with h
    · simp only [List.mem_cons, ih]
      tauto
    · simp only [List.mem_cons]

/-- Canonical ordering permutes; membership is preserved. -/
theorem mem_canonicalOrder (x : Nat) :
    ∀ (l : List Nat), x ∈ canonicalOrder l ↔ x ∈ l := by
  intro l
  induction l with
  | nil => simp [canonicalOrder]
  | cons c t ih =>
    simp only [canonicalOrder, mem_sinkCC, ih, List.mem_cons]

/-- Sinking one codepoint into a canonically ordered list keeps it
canonically ordered. -/
theorem orderedCC_sinkCC (c : Nat) :
    ∀ (l : List Nat), OrderedCC l → OrderedCC (sinkCC c l) := by
  intro l
  induction l with
  | nil => intro _; simp [sinkCC, OrderedCC]
  | cons d t ih =>
    intro hord
    rw [OrderedCC, List.chain'_cons'] at hord
    obtain ⟨hd, ht⟩ := hord
    simp only [sinkCC]
    split_ifs with h
    · have hs := ih ht
      rw [OrderedCC, List.chain'_cons']
      refine ⟨?_, hs⟩
      intro y hy
      cases t with
      | nil =>
        simp only [sinkCC, List.head?_cons, Option.mem_def, Option.some.injEq] at hy
        subst hy
        omega
      | cons e t2 =>
        simp only [sinkCC] at hy
        split_ifs at hy with h2
        · simp only [List.head?_cons, Option.mem_def, Option.some.injEq] at hy
          subst hy
          exact hd e (by simp)
        · simp only [List.head?_cons, Option.mem_def, Option.some.injEq] at hy
          subst hy
          omega
    · rw [OrderedCC, List.chain'_cons]
      constructor
      · omega
      · rw [OrderedCC, List.chain'_cons'] at *
        exact ⟨hd, ht⟩

/-- Canonical ordering produces a canonically ordered sequence. -/
theorem orderedCC_canonicalOrder : ∀ (l : List Nat), OrderedCC (canonicalOrder l) := by
  intro l
  induction l with
  | nil => simp [canonicalOrder, OrderedCC]
  | cons c t ih => exact orderedCC_sinkCC c (canonicalOrder t) ih

/-- Canonical ordering is the identity on canonically ordered sequences. -/
theorem canonicalOrder_of_ordered :
    ∀ (l : List Nat), OrderedCC l → canonicalOrder l = l := by
  intro l
  induction l with
  | nil => intro _; rfl
  | cons c t ih =>
    intro hord
    rw [OrderedCC, List.chain'_cons'] at hord
    obtain ⟨hd, ht⟩ := hord
    rw [canonicalOrder, ih ht]
    cases t with
    | nil => rfl
    | cons d t2 =>
      rw [sinkCC, if_neg]
      exact hd d (by simp)

/-- Every codepoint emitted by canonical composition is a pending codepoint,
an input codepoint, or a primary composite from the table. -/
theorem mem_composeGo (x : Nat) :
    ∀ (l : List Nat) (pend : Option Nat), x ∈ composeGo pend l →
      x ∈ pendList pend ∨ x ∈ l ∨ x ∈ compTbl.map (fun q => q.2) := by
  intro l
  induction l with
  | nil =>
    intro pend hx
    cases pend with
    | none => simp [composeGo] at hx
    | some c =>
      simp only [composeGo, List.mem_singleton] at hx
      subst hx
      simp [pendList]
  | cons m t ih =>
    intro pend hx
    cases pend with
    | none =>
      simp only [composeGo] at hx
      split_ifs at hx with h
      · rcases ih (some m) hx with hp | hin | hc
        · simp only [pendList, List.mem_singleton] at hp
          subst hp
          simp
        · simp [hin]
        · simp [hc]
      · rcases List.mem_cons.mp hx with rfl | hx2
        · simp
        · rcases ih none hx2 with hp | hin | hc
          · simp [pendList] at hp
          · simp [hin]
          · simp [hc]
    | some c =>
      simp only [composeGo] at hx
      cases hcomp : compLookup c m with
      | some y =>
        rw [hcomp] at hx
        simp only at hx
        rcases ih (some y) hx with hp | hin | hc
        · simp only [pendList, List.mem_singleton] at hp
          subst hp
          have : ((c, m), x) ∈ compTbl := lookup_mem compTbl (c, m) x hcomp
          right; right
          exact List.mem_map.mpr ⟨((c, m), x), this, rfl⟩
        · simp [hin]
        · simp [hc]
      | none =>
        rw [hcomp] at hx
        simp only at hx
        rcases List.mem_cons.mp hx with rfl | hx2
        · simp [pendList]
        · split_ifs at hx2 with h
          · rcases ih (some m) hx2 with hp | hin | hc
            · simp only [pendList, List.mem_singleton] at hp
              subst hp
              simp
            · simp [hin]
            · simp [hc]
          · rcases List.mem_cons.mp hx2 with rfl | hx3
            · simp
            · rcases ih none hx3 with hp | hin | hc
              · simp [pendList] at hp
              · simp [hin]
              · simp [hc]

/-- Decomposing a composed sequence recovers it: on decomposition-free
input, canonical composition followed by full decomposition is the identity
(up to the pending slot's decomposition), given table coherence. -/
theorem decompAll_composeGo (tbl : List (Nat × List Nat))
    (hco : ∀ q ∈ compTbl, decompChar tbl q.2 = decompChar tbl q.1.1 ++ [q.1.2]) :
    ∀ (l : List Nat) (pend : Option Nat), (∀ m ∈ l, tbl.lookup m = none) →
      decompAll tbl (composeGo pend l) =
        decompAll tbl (pendList pend) ++ l := by
  intro l
  induction l with
  | nil =>
    intro pend hl
    cases pend with
    | none => simp [composeGo, decompAll, pendList]
    | some c => simp [composeGo, decompAll, pendList]
  | cons m t ih =>
    intro pend hl
    have hm : tbl.lookup m = none := hl m (by simp)
    have ht : ∀ x ∈ t, tbl.lookup x = none :=
      fun x hx => hl x (List.mem_cons_of_mem _ hx)
    have hdm : decompChar tbl m = [m] := by
      rw [decompChar, hm]; rfl
    cases pend with
    | none =>
      simp only [composeGo]
      split_ifs with hstart
      · rw [ih (some m) ht]
        simp only [pendList, decompAll, List.flatMap_cons, List.flatMap_nil,
          List.append_nil, List.nil_append, hdm]
        rfl
      · simp only [decompAll, List.flatMap_cons, hdm]
        have := ih none ht
        simp only [decompAll, pendList, List.flatMap_nil, List.nil_append] at this
        rw [this]
        simp [pendList]
    | some c =>
      simp only [composeGo]
      cases hcomp : compLookup c m with
      | some y =>
        simp only
        rw [ih (some y) ht]
        have hq : ((c, m), y) ∈ compTbl := lookup_mem compTbl (c, m) y hcomp
        have := hco ((c, m), y) hq
        simp only [pendList, decompAll, List.flatMap_cons, List.flatMap_nil,
          List.append_nil] at this ⊢
        rw [this, List.append_assoc]
        rfl
      | none =>
        simp only
        simp only [decompAll, List.flatMap_cons, pendList, List.flatMap_nil,
          List.append_nil]
        congr 1
        split_ifs with hstart
        · have := ih (some m) ht
          simp only [decompAll, pendList, List.flatMap_cons, List.flatMap_nil,
            List.append_nil, hdm] at this
          rw [this]
          rfl
        · simp only [List.flatMap_cons, hdm]
          have := ih none ht
          simp only [decompAll, pendList, List.flatMap_nil, List.nil_append] at this
          rw [this]
          rfl

/-- Decompose-order is idempotent (decomposition forms). -/
theorem applyD_idem (tbl : List (Nat × List Nat))
    (hflat : ∀ p ∈ tbl, ∀ d ∈ p.2, tbl.lookup d = none) (l : List Nat) :
    canonicalOrder (decompAll tbl (canonicalOrder (decompAll tbl l))) =
      canonicalOrder (decompAll tbl l) := by
  have hyflat : ∀ c ∈ canonicalOrder (decompAll tbl l), tbl.lookup c = none :=
    fun c hc => decompAll_flat tbl hflat l c ((mem_canonicalOrder c _).mp hc)
  rw [decompAll_of_flat tbl _ hyflat,
    canonicalOrder_of_ordered _ (orderedCC_canonicalOrder _)]

/-- Decompose-order-compose is idempotent (composition forms). -/
theorem applyC_idem (tbl : List (Nat × List Nat))
    (hflat : ∀ p ∈ tbl, ∀ d ∈ p.2, tbl.lookup d = none)
    (hco : ∀ q ∈ compTbl, decompChar tbl q.2 = decompChar tbl q.1.1 ++ [q.1.2])
    (l : List Nat) :
    composeCps (canonicalOrder (decompAll tbl
        (composeCps (canonicalOrder (decompAll tbl l))))) =
      composeCps (canonicalOrder (decompAll tbl l)) := by
  have hyflat : ∀ c ∈ canonicalOrder (decompAll tbl l), tbl.lookup c = none :=
    fun c hc => decompAll_flat tbl hflat l c ((mem_canonicalOrder c _).mp hc)
  have h1 : decompAll tbl (composeCps (canonicalOrder (decompAll tbl l))) =
      canonicalOrder (decompAll tbl l) := by
    have := decompAll_composeGo tbl hco (canonicalOrder (decompAll tbl l))
      none hyflat
    simpa [composeCps, pendList, decompAll] using this
  rw [h1, canonicalOrder_of_ordered _ (orderedCC_canonicalOrder _)]

/-- The normalization pipeline is idempotent at the codepoint level, for
each of the four forms. -/
theorem applyForm_idempotent (F : NormForm) (l : List Nat) :
    applyForm F (applyForm F l) = applyForm F l := by
  cases F with
  | nfd => exact applyD_idem dcTbl dcTbl_flat l
  | nfkd => exact applyD_idem dkTbl dkTbl_flat l
  | nfc => exact applyC_idem dcTbl dcTbl_flat compTbl_coherent_dc l
  | nfkc => exact applyC_idem dkTbl dkTbl_flat compTbl_coherent_dk l

/-- The pipeline maps scalar sequences to scalar sequences. -/
theorem applyForm_scalar (F : NormForm) (l : List Nat)
    (hl : ∀ c ∈ l, ScalarOK c) : ∀ c ∈ applyForm F l, ScalarOK c := by
  have hD : ∀ (tbl : List (Nat × List Nat)),
      (∀ p ∈ tbl, ∀ d ∈ p.2, ScalarOK d) →
      ∀ c ∈ canonicalOrder (decompAll tbl l), ScalarOK c := by
    intro tbl hts c hc
    exact decompAll_scalar tbl hts l hl c ((mem_canonicalOrder c _).mp hc)
  have hC : ∀ (tbl : List (Nat × List Nat)),
      (∀ p ∈ tbl, ∀ d ∈ p.2, ScalarOK d) →
      ∀ c ∈ composeCps (canonicalOrder (decompAll tbl l)), ScalarOK c := by
    intro tbl hts c hc
    rcases mem_composeGo c (canonicalOrder (decompAll tbl l)) none hc with
      hp | hin | hcomp
    · simp [pendList] at hp
    · exact hD tbl hts c hin
    · obtain ⟨q, hq, rfl⟩ := List.mem_map.mp hcomp
      exact compTbl_scalar q hq
  cases F with
  | nfd => exact hD dcTbl dcTbl_scalar
  | nfkd => exact hD dkTbl dkTbl_scalar
  | nfc => exact hC dcTbl dcTbl_scalar
  | nfkc => exact hC dkTbl dkTbl_scalar

/-- Claim C3: normalization is idempotent — for every valid UTF-8 string
and every recognized form F among {NFC, NFD, NFKC, NFKD},
`normalize_utf8(normalize_utf8(s, F), F) = normalize_utf8(s, F)`. -/
theorem normalize_utf8_idempotent (s t : List Nat) (f : String) (F : NormForm)
    (hf : parseNormalizationForm f = some F)
    (h : normalize_utf8 s f = Except.ok t) :
    normalize_utf8 t f = Except.ok t := by
  unfold normalize_utf8 at h ⊢
  simp only [hf] at h ⊢
  cases hd : utf8Decode s with
  | none =>
    simp only [hd] at h
    exact (Except.noConfusion h)
  | some cps =>
    simp only [hd] at h
    obtain rfl : utf8Encode (applyForm F cps) = t := Except.ok.inj h
    have hsc : ∀ c ∈ applyForm F cps, ScalarOK c :=
      applyForm_scalar F cps (utf8Decode_scalar s cps hd)
    rw [utf8Decode_of_encode (applyForm F cps) hsc]
    simp only
    rw [applyForm_idempotent F cps]

/-- Witness for claim C3 at a concrete input: NFKC of the bytes of
"ẛ̣" is the 3-byte encoding of "ṩ", and normalizing that
output again leaves it unchanged. -/
theorem normalize_utf8_idempotent_witness :
    normalize_utf8 (utf8Encode [0x1E9B, 0x0323]) "NFKC" =
      Except.ok [225, 185, 169] ∧
    normalize_utf8 [225, 185, 169] "NFKC" = Except.ok [225, 185, 169] :=
  ⟨rfl, normalize_utf8_idempotent (utf8Encode [0x1E9B, 0x0323])
    [225, 185, 169] "NFKC" NormForm.nfkc rfl rfl⟩
